import Mathlib

/-!
Verification of the page-flow reconstruction engine of `scripts/html_to_json.py`
(the Apographon HTML-to-JSON converter).

The development shallowly embeds the script's core: the text-cleaning helpers,
the language classifier, the sentence-boundary heuristic `should_merge`, the
fragment merger `merge_fragments`, the two-column table state machine
`ColumnProcessor` (`start_or_continue` / `flush`), and the page scanner
`process_pages`.

Modelling conventions:
- Python strings are Lean `String`s; per-character work happens on `String.data`
  (a `List Char`).  Character classes (`str.isalpha`, `str.isupper`, `\w`, `\d`,
  whitespace) are modelled on the character repertoire the script manipulates
  (ASCII plus the Latin-1 letter block); `Char.isWhitespace` stands for Python's
  whitespace class.
- Python's `None` for the nullable `page` field is `Option Nat`; a raised
  exception is `Option.none` at the function's result type.
- Python dicts keyed by strings are association lists with first-match lookup;
  insertion replaces an existing binding in place and otherwise appends,
  matching dict iteration-order semantics.
- BeautifulSoup trees are embedded as explicit inline/element structures
  (`Inline`, `Child`, `Page` below); re-parsing a serialized element
  (`BeautifulSoup(str(element))`) merges adjacent text nodes, modelled by
  `normInlines`.
- The footnote text pipeline (backlink removal, leading-enumerator strip,
  `extract_structured_text_from_note`) is a pure text-to-text transformation
  applied identically on every path; no claim depends on its internals, so a
  note list item carries the plain text this pipeline produces (`NoteLi.plainText`).
-/

/-! ## Character classes -/

/-- Python whitespace as used by `strip` and the regex class, restricted to the
modelled repertoire: exactly `Char.isWhitespace`. -/
def pyWs (c : Char) : Bool := c.isWhitespace

/-- Python `str.isalpha` on the modelled repertoire: ASCII letters plus the
Latin-1 supplement letters. -/
def pyIsAlpha (c : Char) : Bool :=
  c.isAlpha ||
    (0xC0 ≤ c.toNat && c.toNat ≤ 0xFF && c.toNat ≠ 0xD7 && c.toNat ≠ 0xF7)

/-- Python `str.isupper` on the modelled repertoire: ASCII uppercase plus the
Latin-1 uppercase letters. -/
def pyIsUpper (c : Char) : Bool :=
  ('A' ≤ c && c ≤ 'Z') || (0xC0 ≤ c.toNat && c.toNat ≤ 0xDE && c.toNat ≠ 0xD7)

/-- The regex word class `\w` (ASCII model): letters, digits, underscore. -/
def wordChar (c : Char) : Bool := c.isAlphanum || c = '_'

/-! ## String helpers (`clean_text` and friends) -/

/-- Drop Python-whitespace characters from the front (Python `str.lstrip`). -/
def lstripL (l : List Char) : List Char := l.dropWhile pyWs

/-- Drop Python-whitespace characters from the back (Python `str.rstrip`). -/
def rstripL (l : List Char) : List Char := (l.reverse.dropWhile pyWs).reverse

/-- Drop Python-whitespace characters from both ends (Python `str.strip`). -/
def stripL (l : List Char) : List Char := rstripL (lstripL l)

/-- Replace each whitespace character by a plain space. -/
def wsToSpace (c : Char) : Char := if pyWs c then ' ' else c

/-- Collapse each maximal run of spaces to a single space (keeping the last
space of the run). -/
def squeeze : List Char → List Char
  | [] => []
  | a :: rest =>
    match rest with
    | [] => [a]
    | b :: _ => if a = ' ' ∧ b = ' ' then squeeze rest else a :: squeeze rest

/-- List-level body of `clean_text`: `re.sub(r"\s+", " ", text).strip()`. -/
def cleanTextL (l : List Char) : List Char := stripL (squeeze (l.map wsToSpace))

/-- The script's `clean_text`: collapse whitespace runs to single spaces and
strip the ends. -/
def clean_text (s : String) : String := ⟨cleanTextL s.data⟩

/-! ## `first_alpha_character` and `should_merge` -/

/-- The script's `first_alpha_character`: first alphabetic character of the
text, or nothing (Python returns `""`). -/
def first_alpha_character (s : String) : Option Char := s.data.find? pyIsAlpha

/-- The script's `should_merge` sentence-boundary heuristic. -/
def should_merge (prev_text next_text : String) : Bool :=
  let prev_trimmed := rstripL prev_text.data
  match prev_trimmed.getLast? with
  | none => false
  | some last_char =>
    let first_alpha := (lstripL next_text.data).find? pyIsAlpha
    let boundary :=
      (last_char == '.' || last_char == '!' || last_char == '?') &&
        (match first_alpha with
         | none => true
         | some c => pyIsUpper c)
    if boundary then false else true

/-! ## `detect_language` -/

/-- Membership in the `GREEK_RANGE` regex character class
`[Ͱ-Ͽἀ-῿]`. -/
def greekRangeChar (c : Char) : Bool :=
  (0x370 ≤ c.toNat && c.toNat ≤ 0x3FF) || (0x1F00 ≤ c.toNat && c.toNat ≤ 0x1FFF)

/-- True iff `GREEK_RANGE.search(text)` finds a match. -/
def hasGreekChar (s : String) : Bool := s.data.any greekRangeChar

/-- The `LATIN_KEYWORDS` set, as a list (the count below is order-independent). -/
def LATIN_KEYWORDS : List String :=
  ["est", "et", "in", "ut", "aut", "nec", "quo", "non", "quae", "eius"]

/-- Check that `needle` occurs as a contiguous sublist of `hay` (Python's
substring containment `in`). -/
def isSubL (needle hay : List Char) : Bool :=
  hay.tails.any (fun t => needle.isPrefixOf t)

/-- Python `str.lower` on the modelled repertoire (ASCII case map). -/
def pyLower (s : String) : String := ⟨s.data.map Char.toLower⟩

/-- Number of Latin keywords `w` with `f" {w} "` a substring of `f" {lowered} "`. -/
def latinHits (lowered : String) : Nat :=
  (LATIN_KEYWORDS.filter
    (fun w => isSubL (" " ++ w ++ " ").data (" " ++ lowered ++ " ").data)).length

/-- Does the stripped lower-cased text start with `"qu"`? -/
def startsQu (lowered : String) : Bool :=
  match stripL lowered.data with
  | 'q' :: 'u' :: _ => true
  | _ => false

/-- The script's `detect_language`. -/
def detect_language (text : String) : String :=
  if hasGreekChar text then "grc"
  else
    let lowered := pyLower text
    if 2 ≤ latinHits lowered ∨ startsQu lowered then "la" else "de"

/-! ## Superscript markers -/

/-- The `SUPER_MAP` digit translation. -/
def supChar (c : Char) : Char :=
  if c = '0' then '⁰' else if c = '1' then '¹' else if c = '2' then '²'
  else if c = '3' then '³' else if c = '4' then '⁴' else if c = '5' then '⁵'
  else if c = '6' then '⁶' else if c = '7' then '⁷' else if c = '8' then '⁸'
  else if c = '9' then '⁹' else c

/-- The script's `to_superscript`: decimal digits of the marker index rendered
as superscripts. -/
def to_superscript (marker : Nat) : String := ⟨(Nat.toDigits 10 marker).map supChar⟩

/-! ## Notes and fragments -/

/-- A footnote payload as built by the script (the `translation` field is
modelled as `transl`, always empty at this stage). -/
structure Note where
  id : String
  marker : String
  text : String
  transl : String
deriving DecidableEq

/-- The `inline_note_text` helper. -/
def inline_note_text (note_payload : Note) : String :=
  if note_payload.text = "" then note_payload.marker
  else note_payload.marker ++ "Footnote " ++ note_payload.marker ++ ". " ++
    note_payload.text

/-- A fragment dict as produced by the scanner and consumed by the merger.
`page` is `Option Nat` (nullable in Python); `pages` entries are `Option Nat`
because the merger itself can insert `None` into a pages list. -/
structure Frag where
  text : String
  notes : List Note
  lang : String
  show_by_default : Bool
  page : Option Nat
  pages : List (Option Nat)
  origin : String
deriving DecidableEq

/-- The script's `clone_fragment`; in the model every field is present, so the
copy reproduces the fragment. -/
def clone_fragment (fragment : Frag) : Frag :=
  { text := fragment.text
    notes := fragment.notes
    lang := fragment.lang
    show_by_default := fragment.show_by_default
    page := fragment.page
    pages := fragment.pages
    origin := fragment.origin }

theorem clone_fragment_eq (f : Frag) : clone_fragment f = f := rfl

/-! ## `merge_fragments` -/

/-- Setting the outgoing accumulator's `page` from its `pages` list:
`current["page"] = current["pages"][0] if current["pages"] else None`. -/
def finishCur (c : Frag) : Frag :=
  { c with page := match c.pages with
                   | [] => none
                   | p :: _ => p }

/-- Starting a fresh accumulator from a fragment: clone, and when the clone's
`pages` list is empty replace it by the singleton `[page]`. -/
def startCur (f : Frag) : Frag :=
  let c := clone_fragment f
  if c.pages.isEmpty then { c with pages := [c.page] } else c

/-- The merger's page-appending loop: each incoming page is appended when it is
non-null and differs from the accumulator's last recorded page. -/
def absorbPages : List (Option Nat) → List (Option Nat) → List (Option Nat)
  | cur, [] => cur
  | cur, p :: ps =>
    if p ≠ none ∧ cur.getLast? ≠ some p then absorbPages (cur ++ [p]) ps
    else absorbPages cur ps

/-- Merging an incoming fragment into the accumulator: absorb pages, join the
texts with one space and re-clean, append the notes. -/
def absorb (c f : Frag) : Frag :=
  let newPages := if f.pages.isEmpty then [f.page] else f.pages
  { c with pages := absorbPages c.pages newPages
           text := clean_text (c.text ++ " " ++ f.text)
           notes := c.notes ++ f.notes }

/-- The body of `merge_fragments`: the loop over fragments with the optional
`current` accumulator, mirroring each branch of the Python loop in order. -/
def mergeGo : Option Frag → List Frag → List Frag
  | none, [] => []
  | some c, [] => [finishCur c]
  | cur, f :: rest =>
    if f.text = "" then mergeGo cur rest
    else if f.origin = "table-cell" then
      match cur with
      | some c => finishCur c :: clone_fragment f :: mergeGo none rest
      | none => clone_fragment f :: mergeGo none rest
    else
      match cur with
      | none => mergeGo (some (startCur f)) rest
      | some c =>
        if c.lang ≠ f.lang ∨ c.show_by_default ≠ f.show_by_default ∨
            c.origin ≠ f.origin then
          finishCur c :: mergeGo (some (startCur f)) rest
        else if should_merge c.text f.text = false then
          finishCur c :: mergeGo (some (startCur f)) rest
        else
          mergeGo (some (absorb c f)) rest

/-- The script's `merge_fragments`. -/
def merge_fragments (fragments : List Frag) : List Frag := mergeGo none fragments

/-! ## Inline markup model

A block element's parsed content: a sequence of text nodes and inline
footnote-reference anchors (`<a class="footnote-ref" href=...>text</a>`).
`get_text` concatenates the text nodes; a serialize-and-reparse round trip
merges adjacent text nodes (`normInlines`). -/

inductive Inline where
  | str (s : String)
  | ref (href : String) (text : String)
deriving DecidableEq

/-- Python `href.lstrip('#')`. -/
def lstripHash (s : String) : String := ⟨s.data.dropWhile (fun c => c = '#')⟩

/-- The text pieces of a node list, in document order. -/
def pieces : List Inline → List String
  | [] => []
  | Inline.str s :: rest => s :: pieces rest
  | Inline.ref _ t :: rest => t :: pieces rest

/-- BeautifulSoup `get_text()` (no separator): concatenation of all pieces. -/
def getTextL (l : List Inline) : String := String.join (pieces l)

/-- BeautifulSoup `get_text(sep)`: pieces joined by the separator. -/
def getTextSep (sep : String) (l : List Inline) : String :=
  String.intercalate sep (pieces l)

/-- BeautifulSoup `get_text(strip=True)`: concatenation of the stripped pieces. -/
def getTextStrip (l : List Inline) : String :=
  String.join ((pieces l).map (fun s => (⟨stripL s.data⟩ : String)))

/-- Merge adjacent text nodes, as a serialize-and-reparse does. -/
def normInlines : List Inline → List Inline
  | [] => []
  | Inline.ref h t :: rest => Inline.ref h t :: normInlines rest
  | Inline.str a :: rest =>
    match normInlines rest with
    | Inline.str b :: tail => Inline.str (a ++ b) :: tail
    | other => Inline.str a :: other

/-- Does the string start, after leading whitespace, with a closing parenthesis? -/
def parenStarts (s : String) : Bool :=
  match lstripL s.data with
  | ')' :: _ => true
  | _ => false

/-- Drop the closing parenthesis that follows the leading whitespace, keeping
that whitespace (`prefix + stripped[1:]` in the script). -/
def parenStrip (s : String) : String :=
  let ws := s.data.takeWhile pyWs
  match s.data.dropWhile pyWs with
  | ')' :: rest => ⟨ws ++ rest⟩
  | other => ⟨ws ++ other⟩

/-- The shared inline-reference resolution loop: each `footnote-ref` anchor
whose (hash-stripped) href is found by `lookup` is replaced by `repl payload`;
when its immediate following text node starts with a stray `)` after
whitespace, that parenthesis is absorbed.  Unmatched anchors stay in place. -/
def resolveGo {α : Type} (repl : α → String) (lookup : String → Option α) :
    Bool → List Inline → List Inline
  | _, [] => []
  | fix, Inline.str s :: rest =>
    let s' := if fix ∧ parenStarts s then parenStrip s else s
    Inline.str s' :: resolveGo repl lookup false rest
  | _, Inline.ref href t :: rest =>
    match lookup (lstripHash href) with
    | none => Inline.ref href t :: resolveGo repl lookup false rest
    | some p => Inline.str (repl p) :: resolveGo repl lookup true rest

/-- Entry point of the resolution loop (no pending parenthesis fix). -/
def resolveRefsWith {α : Type} (repl : α → String) (lookup : String → Option α)
    (l : List Inline) : List Inline :=
  resolveGo repl lookup false l

/-! ## Dicts as association lists -/

/-- Python dict lookup (first match; `dictInsert` keeps keys unique). -/
def dictFind {α : Type} : List (String × α) → String → Option α
  | [], _ => none
  | (k', v) :: rest, k => if k' = k then some v else dictFind rest k

/-- Python dict assignment: replace an existing binding in place, else append. -/
def dictInsert {α : Type} : List (String × α) → String → α → List (String × α)
  | [], k, v => [(k, v)]
  | (k', v') :: rest, k, v =>
    if k' = k then (k', v) :: rest else (k', v') :: dictInsert rest k v

/-! ## Footnote list items -/

/-- A footnote `<li>`: its id attribute (`""` when absent), the plain text the
note-cleaning pipeline produces for it (backlink removal, leading-enumerator
strip, `extract_structured_text_from_note` — abstracted as data since the
claims treat it as opaque), and whether a table occurs inside the item (for
`page.find('table')`). -/
structure NoteLi where
  id : String
  plainText : String
  hasTable : Bool
deriving DecidableEq

/-- Python's digit class on the modelled repertoire: ASCII digits and the
superscript digits. -/
def pyIsDigitChar (c : Char) : Bool :=
  c.isDigit || c = '⁰' || c = '¹' || c = '²' || c = '³' || c = '⁴' ||
    c = '⁵' || c = '⁶' || c = '⁷' || c = '⁸' || c = '⁹'

/-- Python `str.isdigit` (false on the empty string). -/
def pyIsDigitStr (s : String) : Bool := !s.isEmpty && s.data.all pyIsDigitChar

/-! ## Column-ownership identifier patterns -/

/-- Consume an expected literal prefix, returning the remainder. -/
def expectLit : List Char → List Char → Option (List Char)
  | [], s => some s
  | _ :: _, [] => none
  | c :: cs, d :: ds => if d = c then expectLit cs ds else none

/-- Consume one-or-more ASCII digits, returning the remainder. -/
def digits1 (s : List Char) : Option (List Char) :=
  let ds := s.takeWhile Char.isDigit
  if ds.isEmpty then none else some (s.drop ds.length)

/-- Full match of `fn\d+-Aet\d+$`. -/
def matchAet (s : List Char) : Bool :=
  ((((expectLit ['f', 'n'] s).bind digits1).bind
      (expectLit ['-', 'A', 'e', 't'])).bind digits1) == some []

/-- Full match of `fn\d+-\w*b$`. -/
def matchRightB (s : List Char) : Bool :=
  match ((expectLit ['f', 'n'] s).bind digits1).bind (expectLit ['-']) with
  | none => false
  | some r => r.getLast? == some 'b' && r.dropLast.all wordChar

/-- Full match of `fn\d+-\d+a?$`. -/
def matchLeftNum (s : List Char) : Bool :=
  match ((expectLit ['f', 'n'] s).bind digits1).bind (expectLit ['-']) with
  | none => false
  | some r => digits1 r == some [] || digits1 r == some ['a']

/-! ## ColumnProcessor state -/

/-- One side's accumulators (`self.data['left']` / `self.data['right']`). -/
structure ColData where
  html_parts : List (List Inline)
  notes : List Note
  pages : List Nat
deriving DecidableEq

/-- The `ColumnProcessor` instance state. -/
structure CPState where
  active : Bool
  footnote_map : List (String × String)
  note_lookup : List (String × Note)
  counterL : Nat
  counterR : Nat
  left : ColData
  right : ColData
  post_table_fragments : List Frag
deriving DecidableEq

/-- The freshly-constructed (and reset) processor state. -/
def initCP : CPState :=
  { active := false, footnote_map := [], note_lookup := [],
    counterL := 0, counterR := 0,
    left := { html_parts := [], notes := [], pages := [] },
    right := { html_parts := [], notes := [], pages := [] },
    post_table_fragments := [] }

/-- Extraction of one footnote list item inside a column run (the body of the
`for note_li in footnotes_div.find_all('li')` loop): empty or already-seen ids
are skipped; otherwise ownership is decided by the identifier patterns, the
owner's counter advances, and the payload is recorded. -/
def colExtractNote (st : CPState) (li : NoteLi) : CPState :=
  if li.id = "" ∨ (dictFind st.note_lookup li.id).isSome then st
  else
    let ownerRight : Bool :=
      if matchAet li.id.data || matchRightB li.id.data then true
      else if matchLeftNum li.id.data then false
      else false
    let cnt := if ownerRight then st.counterR + 1 else st.counterL + 1
    let marker := to_superscript cnt
    let payload : Note :=
      { id := "note-" ++ li.id, marker := marker, text := li.plainText,
        transl := "" }
    { st with
      counterR := if ownerRight then cnt else st.counterR
      counterL := if ownerRight then st.counterL else cnt
      right := if ownerRight then
          { st.right with notes := st.right.notes ++ [payload] }
        else st.right
      left := if ownerRight then st.left
        else { st.left with notes := st.left.notes ++ [payload] }
      footnote_map := dictInsert st.footnote_map li.id marker
      note_lookup := dictInsert st.note_lookup li.id payload }

/-- The whole footnote-extraction loop of `start_or_continue`. -/
def colExtractNotes (st : CPState) (lis : List NoteLi) : CPState :=
  lis.foldl colExtractNote st

/-! ## Page model

A page `div.page`'s direct children, in document order: main tables, block
elements (paragraphs/headings, carrying their tag name), and the footnotes
`div.footnotes` holding the note list items.  A table row is its list of `td`
cells, each a node list. -/

inductive Child where
  | table (rows : List (List (List Inline)))
  | block (tag : String) (inlines : List Inline)
  | footnotes (lis : List NoteLi)
deriving DecidableEq

/-- A page container with its `id` attribute (`""` when absent). -/
structure Page where
  idAttr : String
  children : List Child
deriving DecidableEq

/-- The prose tag set `{p, h1, h2, h3, h4}`. -/
def proseTag (t : String) : Bool :=
  t == "p" || t == "h1" || t == "h2" || t == "h3" || t == "h4"

/-- The first footnotes container on the page (`page.find('div', class_='footnotes')`). -/
def firstFootnotes : List Child → Option (List NoteLi)
  | [] => none
  | Child.footnotes lis :: _ => some lis
  | _ :: rest => firstFootnotes rest

/-- The first table on the page not nested in a footnotes region
(`next(tbl for tbl in page_soup.find_all('table') if ...)`). -/
def firstMainTable : List Child → Option (List (List (List Inline)))
  | [] => none
  | Child.table rows :: _ => some rows
  | _ :: rest => firstMainTable rest

/-- Location of the document-order-first table on the page: `some true` when it
is a main table, `some false` when it sits inside the footnotes container. -/
def firstTableLoc : List Child → Option Bool
  | [] => none
  | Child.table _ :: _ => some true
  | Child.footnotes lis :: rest =>
    if lis.any (fun li => li.hasTable) then some false else firstTableLoc rest
  | Child.block _ _ :: rest => firstTableLoc rest

/-- The scanner's `is_table_page` test:
`page.find('table') and not page.find('table').find_parent(class_='footnotes')`. -/
def isTablePage (pg : Page) : Bool := firstTableLoc pg.children == some true

/-! ## Block processing, column path -/

/-- Text of a prose block on a table page after inline-note resolution: the
block is re-parsed, matched anchors are replaced by
`inline_note_text(payload)`, and the visible text is cleaned. -/
def columnBlockText (lookup : List (String × Note)) (b : List Inline) : String :=
  clean_text (getTextL
    (resolveRefsWith inline_note_text (dictFind lookup) (normInlines b)))

/-- Notes collected for a prose block on a table page: one payload copy per
matched anchor, in document order. -/
def columnBlockNotes (lookup : List (String × Note)) (b : List Inline) :
    List Note :=
  b.filterMap (fun i =>
    match i with
    | Inline.ref href _ => dictFind lookup (lstripHash href)
    | _ => none)

/-- Processing of one prose child during `start_or_continue`'s children walk
(skips empty and purely-numeric blocks, before and after resolution). -/
def processColumnBlock (lookup : List (String × Note)) (page_num : Nat)
    (b : List Inline) : Option Frag :=
  let cand := clean_text (getTextSep " " b)
  if cand = "" ∨ pyIsDigitStr cand then none
  else
    let notes := columnBlockNotes lookup b
    let text := columnBlockText lookup b
    if text = "" ∨ pyIsDigitStr text then none
    else
      let lang := detect_language text
      some { text := text, notes := notes, lang := lang,
             show_by_default := lang != "grc", page := some page_num,
             pages := [some page_num], origin := "prose-block" }

/-- The children walk of `start_or_continue`: prose blocks before the main
table go to the returned fragments, prose blocks after it are queued as
post-table fragments. -/
def colWalk (lookup : List (String × Note)) (page_num : Nat) :
    List Child → Bool → List Frag × List Frag
  | [], _ => ([], [])
  | c :: rest, table_seen =>
    match c with
    | Child.table _ => colWalk lookup page_num rest true
    | Child.footnotes _ => colWalk lookup page_num rest table_seen
    | Child.block tag inl =>
      if proseTag tag then
        match processColumnBlock lookup page_num inl with
        | none => colWalk lookup page_num rest table_seen
        | some fr =>
          let pr := colWalk lookup page_num rest table_seen
          if table_seen then (pr.1, fr :: pr.2) else (fr :: pr.1, pr.2)
      else colWalk lookup page_num rest table_seen

/-- One accumulated column part: the optional `"[p.N] "` prefix followed by the
row cells' markup joined with single spaces. -/
def tableCellsPart (pfx : String) (cells : List (List Inline)) : List Inline :=
  (if pfx = "" then [] else [Inline.str pfx]) ++
    List.intercalate [Inline.str " "] cells

/-- First cells of the rows having at least two cells. -/
def rowsLeft (rows : List (List (List Inline))) : List (List Inline) :=
  rows.filterMap (fun r =>
    match r with
    | c0 :: _ :: _ => some c0
    | _ => none)

/-- Second cells of the rows having at least two cells. -/
def rowsRight (rows : List (List (List Inline))) : List (List Inline) :=
  rows.filterMap (fun r =>
    match r with
    | _ :: c1 :: _ => some c1
    | _ => none)

/-- The script's `ColumnProcessor.start_or_continue`, as a pure state step:
activate, record the page number once, accumulate the main table's two column
cells, extract this page's footnotes, then walk the children for prose
fragments (post-table ones are queued on the state). -/
def start_or_continue (st : CPState) (pg : Page) (page_num : Nat) :
    CPState × List Frag :=
  let st1 := { st with active := true }
  let st2 :=
    if page_num ∈ st1.left.pages then st1
    else
      { st1 with
        left := { st1.left with pages := st1.left.pages ++ [page_num] }
        right := { st1.right with pages := st1.right.pages ++ [page_num] } }
  let st3 :=
    match firstMainTable pg.children with
    | none => st2
    | some rows =>
      let lcells := rowsLeft rows
      let rcells := rowsRight rows
      if lcells ≠ [] ∧ rcells ≠ [] then
        let pfx :=
          if 1 < st2.left.pages.length then "[p." ++ toString page_num ++ "] "
          else ""
        { st2 with
          left := { st2.left with
            html_parts := st2.left.html_parts ++ [tableCellsPart pfx lcells] }
          right := { st2.right with
            html_parts := st2.right.html_parts ++ [tableCellsPart pfx rcells] } }
      else st2
  let st4 :=
    match firstFootnotes pg.children with
    | none => st3
    | some lis => colExtractNotes st3 lis
  let walked := colWalk st4.note_lookup page_num pg.children false
  ({ st4 with post_table_fragments := st4.post_table_fragments ++ walked.2 },
    walked.1)

/-- The `process_column` closure inside `flush`: join the accumulated parts
with single spaces, re-parse, resolve inline references against the shared
note lookup, clean the text; `pages[0]` raises (`none`) on an empty page list. -/
def process_column (lookup : List (String × Note)) (col : ColData) :
    Option Frag :=
  let full := List.intercalate [Inline.str " "] col.html_parts
  let resolved := resolveRefsWith inline_note_text (dictFind lookup)
    (normInlines full)
  let text := clean_text (getTextL resolved)
  match col.pages with
  | [] => none
  | p :: _ =>
    some { text := text, notes := col.notes, lang := detect_language text,
           show_by_default := false, page := some p,
           pages := col.pages.map some, origin := "table-cell" }

/-- The script's `ColumnProcessor.flush`: inactive is a no-op; otherwise the
left and right column fragments followed by the queued post-table fragments,
and the state resets to the freshly-constructed one. -/
def flushF (st : CPState) : Option (List Frag × CPState) :=
  if st.active = false then some ([], st)
  else
    match process_column st.note_lookup st.left,
        process_column st.note_lookup st.right with
    | some l, some r => some ([l, r] ++ st.post_table_fragments, initCP)
    | _, _ => none

/-! ## Plain (non-table) page processing -/

/-- An entry of the per-page `page_footnotes` list. -/
structure RawNote where
  id_raw : String
  marker : String
  text : String
deriving DecidableEq

/-- The per-page footnote enumeration of the prose path: every list item with
a non-empty id is extracted (no de-duplication), with a page-local ordinal
marker; `note_map` maps each id to its (last) marker. -/
def extractPageNotes (lis : List NoteLi) :
    List RawNote × List (String × String) × Nat :=
  lis.foldl
    (fun acc li =>
      if li.id = "" then acc
      else
        let counter := acc.2.2 + 1
        let marker := to_superscript counter
        (acc.1 ++ [{ id_raw := li.id, marker := marker, text := li.plainText }],
          dictInsert acc.2.1 li.id marker, counter))
    ([], [], 0)

/-- Text of a prose block on a non-table page: matched anchors are replaced by
the bare marker from `note_map` (not by the inlined note text). -/
def plainBlockText (note_map : List (String × String)) (b : List Inline) :
    String :=
  clean_text (getTextL
    (resolveRefsWith (fun m => m) (dictFind note_map) (normInlines b)))

/-- Notes collected for a prose block on a non-table page: for each anchor
whose id is in `note_map`, the payload is rebuilt from the first matching
`page_footnotes` entry. -/
def plainBlockNotes (note_map : List (String × String))
    (page_footnotes : List RawNote) (b : List Inline) : List Note :=
  b.filterMap (fun i =>
    match i with
    | Inline.ref href _ =>
      let h := lstripHash href
      if (dictFind note_map h).isSome then
        match page_footnotes.find? (fun n => n.id_raw == h) with
        | some nd => some { id := "note-" ++ h, marker := nd.marker,
                            text := nd.text, transl := "" }
        | none => none
      else none
    | _ => none)

/-- Processing of one prose element on a non-table page (the candidate check
uses `get_text(strip=True)` and there is no re-check after resolution). -/
def processPlainBlock (note_map : List (String × String))
    (page_footnotes : List RawNote) (page_num : Nat) (b : List Inline) :
    Option Frag :=
  let cand := getTextStrip b
  if cand = "" ∨ pyIsDigitStr cand then none
  else
    let notes := plainBlockNotes note_map page_footnotes b
    let text := plainBlockText note_map b
    let lang := detect_language text
    some { text := text, notes := notes, lang := lang,
           show_by_default := lang != "grc", page := some page_num,
           pages := [some page_num], origin := "prose-block" }

/-- The prose branch of the scanner for one page: skip the page when it has no
prose elements; otherwise enumerate its footnotes page-locally and process
each prose element. -/
def processPlainPage (pg : Page) (page_num : Nat) : List Frag :=
  let prose := pg.children.filterMap (fun c =>
    match c with
    | Child.block tag inl => if proseTag tag then some inl else none
    | _ => none)
  if prose.isEmpty then []
  else
    let lis := (firstFootnotes pg.children).getD []
    let extracted := extractPageNotes lis
    prose.filterMap (processPlainBlock extracted.2.1 extracted.1 page_num)

/-! ## The page scanner -/

/-- Digit-run search of `re.search(r'\d+', page_id)`: the first maximal ASCII
digit run. -/
def firstDigitRun : List Char → Option (List Char)
  | [] => none
  | c :: rest =>
    if c.isDigit then some (c :: rest.takeWhile Char.isDigit)
    else firstDigitRun rest

/-- Decimal value of a digit run. -/
def digitsToNat (l : List Char) : Nat :=
  l.foldl (fun n c => n * 10 + (c.toNat - '0'.toNat)) 0

/-- The page-number parse
`int(re.search(r'\d+', page_id).group()) if page_id else 0`: an empty (or
absent) id yields 0; a non-empty id with no digit raises (`none`). -/
def parse_page_num (page_id : String) : Option Nat :=
  if page_id = "" then some 0
  else (firstDigitRun page_id.data).map digitsToNat

/-- The page loop of `process_pages`, carrying the column-processor state; the
trailing flush handles a table region running to the document's end. -/
def processPagesGo (cp : CPState) : List Page → Option (List Frag)
  | [] => (flushF cp).map Prod.fst
  | pg :: rest =>
    match parse_page_num pg.idAttr with
    | none => none
    | some page_num =>
      if isTablePage pg then
        let stepped := start_or_continue cp pg page_num
        (processPagesGo stepped.1 rest).map (fun more => stepped.2 ++ more)
      else
        match (if cp.active then flushF cp else some ([], cp)) with
        | none => none
        | some (ffrs, cp') =>
          let frs := processPlainPage pg page_num
          (processPagesGo cp' rest).map (fun more => ffrs ++ frs ++ more)

/-- The script's `process_pages`, over the page containers in source document
order (`soup.find_all('div', class_='page')`). -/
def process_pages (pages : List Page) : Option (List Frag) :=
  processPagesGo initCP pages

/-! ## Dictionary lemmas -/

theorem dictFind_dictInsert {α : Type} (m : List (String × α)) (k id : String)
    (v : α) :
    dictFind (dictInsert m k v) id = if k = id then some v else dictFind m id := by
  induction m with
  | nil => simp [dictInsert, dictFind]
  | cons hd tl ih =>
    obtain ⟨k', v'⟩ := hd
    by_cases hk : k' = k
    · subst hk
      by_cases hid : k' = id <;> simp [dictInsert, dictFind, hid]
    · by_cases hid : k' = id
      · subst hid
        have : ¬k = k' := fun h => hk h.symm
        simp [dictInsert, dictFind, hk, this]
      · simp [dictInsert, dictFind, hk, hid, ih]

/-! ## C3: footnote-id de-duplication -/

theorem colExtractNote_seen (st : CPState) (li : NoteLi)
    (h : (dictFind st.note_lookup li.id).isSome) : colExtractNote st li = st := by
  unfold colExtractNote
  simp [h]

theorem colExtractNote_find_mono (st : CPState) (li : NoteLi) (noteId : String)
    (h : (dictFind st.note_lookup noteId).isSome) :
    dictFind (colExtractNote st li).note_lookup noteId =
      dictFind st.note_lookup noteId := by
  unfold colExtractNote
  by_cases hskip : li.id = "" ∨ (dictFind st.note_lookup li.id).isSome
  · simp [hskip]
  · push_neg at hskip
    have hne : li.id ≠ noteId := by
      intro he
      rw [he] at hskip
      exact hskip.2 h
    simp only [hskip, or_self, if_neg, ite_false]
    rw [if_neg (by simp [hskip.1, hskip.2])]
    simp [dictFind_dictInsert, hne]

/-- C3 (amended): within one ColumnProcessor run, a footnote id already
present in the shared note lookup is never re-extracted — re-encountering it
is a no-op on the whole state, and the looked-up payload stays the first
extraction's payload across any further list of note items. -/
theorem c3_column_dedup : ∀ (st : CPState) (lis : List NoteLi) (noteId : String),
    ((dictFind st.note_lookup noteId).isSome →
      ∀ li : NoteLi, li.id = noteId → colExtractNote st li = st) ∧
    ((dictFind st.note_lookup noteId).isSome →
      dictFind (colExtractNotes st lis).note_lookup noteId =
        dictFind st.note_lookup noteId) := by
  intro st lis noteId
  constructor
  · intro h li hid
    exact colExtractNote_seen st li (by rw [hid]; exact h)
  · intro h
    induction lis generalizing st with
    | nil => rfl
    | cons li rest ih =>
      have hstep := colExtractNote_find_mono st li noteId h
      have hsome : (dictFind (colExtractNote st li).note_lookup noteId).isSome := by
        rw [hstep]; exact h
      calc dictFind (colExtractNotes st (li :: rest)).note_lookup noteId
          = dictFind (colExtractNotes (colExtractNote st li) rest).note_lookup
              noteId := rfl
        _ = dictFind (colExtractNote st li).note_lookup noteId := ih _ hsome
        _ = dictFind st.note_lookup noteId := hstep

/-- C3 (counterexample): the per-page prose extractor does not de-duplicate —
a note id occurring twice in one page's footnote list is extracted twice, and
the replacement-marker map ends up holding the second marker, not the first. -/
theorem c3_page_counterexample :
    ((extractPageNotes [⟨"fn1", "A", false⟩, ⟨"fn1", "B", false⟩]).1.length = 2) ∧
    (dictFind (extractPageNotes
        [⟨"fn1", "A", false⟩, ⟨"fn1", "B", false⟩]).2.1 "fn1" = some "²") := by
  constructor
  · rfl
  · rfl

/-- C3 witness: instantiating the de-duplication theorem on a concrete
already-populated state. -/
theorem c3_column_dedup_witness :
    colExtractNote
        { initCP with note_lookup := [("fn1-1", ⟨"note-fn1-1", "¹", "A", ""⟩)] }
        ⟨"fn1-1", "B", false⟩ =
      { initCP with note_lookup := [("fn1-1", ⟨"note-fn1-1", "¹", "A", ""⟩)] } :=
  (c3_column_dedup
    { initCP with note_lookup := [("fn1-1", ⟨"note-fn1-1", "¹", "A", ""⟩)] }
    [] "fn1-1").1 (by decide) ⟨"fn1-1", "B", false⟩ rfl

/-! ## C4: page-number parsing -/

theorem firstDigitRun_eq_none (l : List Char) :
    firstDigitRun l = none ↔ ∀ c ∈ l, c.isDigit = false := by
  induction l with
  | nil => simp [firstDigitRun]
  | cons c rest ih =>
    by_cases hc : c.isDigit = true
    · simp [firstDigitRun, hc]
    · have hcf : c.isDigit = false := by simpa using hc
      rw [show firstDigitRun (c :: rest) = firstDigitRun rest by
        simp [firstDigitRun, hc]]
      rw [ih]
      constructor
      · intro h x hx
        rcases List.mem_cons.mp hx with hx | hx
        · rw [hx]; exact hcf
        · exact h x hx
      · intro h x hx
        exact h x (List.mem_cons_of_mem _ hx)

/-- C4 (amended): an absent or empty page id yields page number 0, but a
non-empty id parses to a number exactly when it contains a digit; a non-empty
digit-less id raises (`AttributeError` on `re.search(...).group()`), and that
failure aborts the whole scan rather than defaulting to 0. -/
theorem c4_page_number_parse :
    (parse_page_num "" = some 0) ∧
    (∀ pid : String, pid ≠ "" →
      (parse_page_num pid = none ↔ ∀ c ∈ pid.data, c.isDigit = false)) ∧
    process_pages [⟨"pg", [Child.block "p" [Inline.str "a"]]⟩] = none := by
  refine ⟨rfl, ?_, by decide⟩
  intro pid hne
  unfold parse_page_num
  rw [if_neg hne]
  rw [Option.map_eq_none']
  exact firstDigitRun_eq_none pid.data

/-- C4 witness: the parse on the concrete digit-less id `"pg"`. -/
theorem c4_page_number_parse_witness :
    ("pg" : String) ≠ "" ∧ parse_page_num "pg" = none :=
  ⟨by decide, (c4_page_number_parse.2.1 "pg" (by decide)).mpr (by decide)⟩

/-- C4 (counterexample): on the digit-less non-empty id `"pg"` the parse does
not yield page number 0 — it raises. -/
theorem c4_counterexample :
    parse_page_num "pg" = none ∧ parse_page_num "pg" ≠ some 0 := by
  decide

/-! ## C5: flush -/

/-- C5: flushing an inactive processor is a no-op returning no fragments;
flushing an active processor (its page lists are non-empty as soon as a page
was recorded) returns exactly one fragment per side — left first, then right —
each tagged `origin = "table-cell"` with `show_by_default = false`
unconditionally, `page` the first accumulated page and `pages` the accumulated
page list, followed by the queued post-table fragments in order, and the
processor state resets to the freshly-constructed one. -/
theorem c5_flush : ∀ st : CPState,
    (st.active = false → flushF st = some ([], st)) ∧
    (st.active = true → ∀ lp rp lrest rrest,
      st.left.pages = lp :: lrest → st.right.pages = rp :: rrest →
      ∃ l r, flushF st = some ([l, r] ++ st.post_table_fragments, initCP) ∧
        l.origin = "table-cell" ∧ r.origin = "table-cell" ∧
        l.show_by_default = false ∧ r.show_by_default = false ∧
        l.page = some lp ∧ r.page = some rp ∧
        l.pages = st.left.pages.map some ∧ r.pages = st.right.pages.map some ∧
        l.notes = st.left.notes ∧ r.notes = st.right.notes) := by
  intro st
  constructor
  · intro h
    unfold flushF
    rw [if_pos h]
  · intro ha lp rp lrest rrest hl hr
    have hact : ¬st.active = false := by rw [ha]; decide
    unfold flushF process_column
    rw [if_neg hact]
    rw [hl, hr]
    exact ⟨_, _, rfl, rfl, rfl, rfl, rfl, rfl, rfl, rfl, rfl, rfl, rfl⟩

/-- C5 witness: a concrete two-page active run with a note, and the inactive
no-op on the fresh state. -/
theorem c5_flush_witness :
    (flushF initCP = some ([], initCP)) ∧
    (∃ l r,
      flushF
          ⟨true, [("fn1-1", "¹")], [("fn1-1", ⟨"note-fn1-1", "¹", "NoteA", ""⟩)],
            1, 0,
            ⟨[[Inline.str "L"]], [⟨"note-fn1-1", "¹", "NoteA", ""⟩], [3, 4]⟩,
            ⟨[[Inline.str "R"]], [], [3, 4]⟩,
            [⟨"post", [], "de", true, some 4, [some 4], "prose-block"⟩]⟩ =
        some ([l, r] ++
          [⟨"post", [], "de", true, some 4, [some 4], "prose-block"⟩], initCP) ∧
      l.origin = "table-cell" ∧ r.origin = "table-cell" ∧
      l.show_by_default = false ∧ r.show_by_default = false ∧
      l.page = some 3 ∧ r.page = some 3 ∧
      l.pages = [some 3, some 4] ∧ r.pages = [some 3, some 4] ∧
      l.notes = [⟨"note-fn1-1", "¹", "NoteA", ""⟩] ∧ r.notes = []) :=
  ⟨(c5_flush initCP).1 rfl,
    (c5_flush _).2 rfl 3 3 [4] [4] rfl rfl⟩

/-! ## C9: language detection -/

/-- C9: `detect_language` is pure and total with first-match-wins rule order —
any Greek-range character forces `"grc"`; otherwise at least two whole-word
Latin keyword hits in the lower-cased text, or a trimmed `"qu"` prefix, force
`"la"`; everything else yields `"de"`; in particular
`"quod erat demonstrandum"` classifies as `"la"`. -/
theorem c9_detect_language : ∀ t : String,
    (hasGreekChar t = true → detect_language t = "grc") ∧
    (hasGreekChar t = false →
      (2 ≤ latinHits (pyLower t) ∨ startsQu (pyLower t) = true) →
      detect_language t = "la") ∧
    (hasGreekChar t = false → latinHits (pyLower t) < 2 →
      startsQu (pyLower t) = false → detect_language t = "de") ∧
    detect_language "quod erat demonstrandum" = "la" := by
  intro t
  refine ⟨?_, ?_, ?_, by decide⟩
  · intro hg
    unfold detect_language
    rw [if_pos hg]
  · intro hg hla
    unfold detect_language
    rw [if_neg (by rw [hg]; decide)]
    rw [if_pos (by simpa using hla)]
  · intro hg hless hqu
    unfold detect_language
    rw [if_neg (by rw [hg]; decide)]
    rw [if_neg ?_]
    intro h
    rcases h with h | h
    · omega
    · rw [hqu] at h
      cases h

/-- C9 witness: Greek-range text classifies as `"grc"`, and generic prose with
fewer than two keyword hits classifies as `"de"`. -/
theorem c9_detect_language_witness :
    detect_language "αβγ" = "grc" ∧ detect_language "some plain words" = "de" :=
  ⟨(c9_detect_language "αβγ").1 (by decide),
    (c9_detect_language "some plain words").2.2.1 (by decide) (by decide)
      (by decide)⟩

/-! ## C8: should_merge -/

/-- C8: `should_merge` returns false exactly when the right-trimmed previous
text is empty, or when its last character is `.`, `!` or `?` and the first
alphabetic character of the next text after leading whitespace is absent or
uppercase; the three concrete spec examples evaluate accordingly. -/
theorem c8_should_merge : (∀ prev next : String,
    should_merge prev next = false ↔
      (rstripL prev.data = [] ∨
        (∃ last, (rstripL prev.data).getLast? = some last ∧
          (last = '.' ∨ last = '!' ∨ last = '?') ∧
          (first_alpha_character (⟨lstripL next.data⟩ : String) = none ∨
            ∃ c, first_alpha_character (⟨lstripL next.data⟩ : String) = some c ∧
              pyIsUpper c = true)))) ∧
    should_merge "End of sentence." "Next begins." = false ∧
    should_merge "a comma," "continues" = true ∧
    should_merge "" "anything" = false := by
  refine ⟨?_, by decide, by decide, by decide⟩
  intro prev next
  have hfa : first_alpha_character (⟨lstripL next.data⟩ : String) =
      (lstripL next.data).find? pyIsAlpha := rfl
  unfold should_merge
  cases hg : (rstripL prev.data).getLast? with
  | none =>
    simp only [List.getLast?_eq_none_iff] at hg
    simp [hg]
  | some last =>
    have hne : ¬rstripL prev.data = [] := by
      intro h
      rw [h] at hg
      cases hg
    simp only [hfa, hg]
    cases hfab : (lstripL next.data).find? pyIsAlpha with
    | none =>
      by_cases hl : last = '.' ∨ last = '!' ∨ last = '?'
      · have : (last == '.' || last == '!' || last == '?') = true := by
          rcases hl with h | h | h <;> simp [h]
        simp [this, hne, hl]
      · have : (last == '.' || last == '!' || last == '?') = false := by
          push_neg at hl
          simp [hl.1, hl.2.1, hl.2.2]
        simp [this, hne, hl]
    | some c =>
      by_cases hl : last = '.' ∨ last = '!' ∨ last = '?'
      · have hb : (last == '.' || last == '!' || last == '?') = true := by
          rcases hl with h | h | h <;> simp [h]
        cases hu : pyIsUpper c with
        | true => simp [hb, hu, hne, hl]
        | false => simp [hb, hu, hne, hl]
      · have hb : (last == '.' || last == '!' || last == '?') = false := by
          push_neg at hl
          simp [hl.1, hl.2.1, hl.2.2]
        simp [hb, hne, hl]

/-! ## C2: inline footnote resolution -/

theorem string_join_three (a b c : String) : String.join [a, b, c] = a ++ b ++ c :=
  rfl

/-- C2 (amended): for a prose block `pre ++ anchor ++ post` (no stray
parenthesis after the anchor), the column-processor path replaces a matched
anchor by `inline_note_text` — which for a non-empty note text is the literal
`marker + "Footnote " + marker + ". " + note_text` — and copies the Note into
the block's notes, while the plain non-table-page path replaces the matched
anchor by the bare marker only (no note text is inlined) and copies the Note
rebuilt from the first matching page-footnote entry; on both paths an anchor
with no matching note is left as its raw marker text with no Note attached. -/
theorem c2_inline_resolution : ∀ (lookup : List (String × Note))
    (nm : List (String × String)) (pf : List RawNote)
    (pre href atxt post : String) (n : Note) (m : String),
    dictFind lookup (lstripHash href) = some n →
    dictFind nm (lstripHash href) = some m →
    parenStarts post = false →
    (columnBlockText lookup
        [Inline.str pre, Inline.ref href atxt, Inline.str post] =
          clean_text (pre ++ inline_note_text n ++ post) ∧
      columnBlockNotes lookup
        [Inline.str pre, Inline.ref href atxt, Inline.str post] = [n] ∧
      (n.text ≠ "" → inline_note_text n =
        n.marker ++ "Footnote " ++ n.marker ++ ". " ++ n.text) ∧
      plainBlockText nm
        [Inline.str pre, Inline.ref href atxt, Inline.str post] =
          clean_text (pre ++ m ++ post) ∧
      (∀ rn, pf.find? (fun x => x.id_raw == lstripHash href) = some rn →
        plainBlockNotes nm pf
          [Inline.str pre, Inline.ref href atxt, Inline.str post] =
            [⟨"note-" ++ lstripHash href, rn.marker, rn.text, ""⟩])) ∧
    (∀ (lookup2 : List (String × Note)) (nm2 : List (String × String)),
      dictFind lookup2 (lstripHash href) = none →
      dictFind nm2 (lstripHash href) = none →
      columnBlockText lookup2
          [Inline.str pre, Inline.ref href atxt, Inline.str post] =
            clean_text (pre ++ atxt ++ post) ∧
        columnBlockNotes lookup2
          [Inline.str pre, Inline.ref href atxt, Inline.str post] = [] ∧
        plainBlockText nm2
          [Inline.str pre, Inline.ref href atxt, Inline.str post] =
            clean_text (pre ++ atxt ++ post) ∧
        plainBlockNotes nm2 pf
          [Inline.str pre, Inline.ref href atxt, Inline.str post] = []) := by
  intro lookup nm pf pre href atxt post n m hcol hnm hpar
  have hnorm : normInlines [Inline.str pre, Inline.ref href atxt, Inline.str post]
      = [Inline.str pre, Inline.ref href atxt, Inline.str post] := by
    simp [normInlines]
  constructor
  · refine ⟨?_, ?_, ?_, ?_, ?_⟩
    · unfold columnBlockText
      rw [hnorm]
      unfold resolveRefsWith
      simp only [resolveGo, hcol, hpar]
      rfl
    · simp [columnBlockNotes, hcol]
    · intro hne
      unfold inline_note_text
      rw [if_neg hne]
    · unfold plainBlockText
      rw [hnorm]
      unfold resolveRefsWith
      simp only [resolveGo, hnm, hpar]
      rfl
    · intro rn hrn
      simp [plainBlockNotes, hnm, hrn]
  · intro lookup2 nm2 h2 h3
    refine ⟨?_, ?_, ?_, ?_⟩
    · unfold columnBlockText
      rw [hnorm]
      unfold resolveRefsWith
      simp only [resolveGo, h2]
      rfl
    · simp [columnBlockNotes, h2]
    · unfold plainBlockText
      rw [hnorm]
      unfold resolveRefsWith
      simp only [resolveGo, h3]
      rfl
    · simp [plainBlockNotes, h3]

/-- C2 (counterexample): on a concrete non-table-page prose block with a
matched note, the plain path's fragment text contains the bare marker only —
it differs from the claimed `marker + "Footnote " + marker + ". " + note_text`
inlining (which only the column path performs). -/
theorem c2_counterexample :
    plainBlockText [("fn1", "¹")]
        [Inline.str "Text", Inline.ref "#fn1" "1", Inline.str " rest"] =
      "Text¹ rest" ∧
    clean_text ("Text" ++
        inline_note_text ⟨"note-fn1", "¹", "Anm", ""⟩ ++ " rest") =
      "Text¹Footnote ¹. Anm rest" ∧
    ("Text¹ rest" : String) ≠ "Text¹Footnote ¹. Anm rest" := by
  refine ⟨by decide, by decide, by decide⟩

/-- C2 witness: the resolution theorem instantiated on concrete lookups and a
concrete block. -/
theorem c2_inline_resolution_witness :
    columnBlockText [("fn1", ⟨"note-fn1", "¹", "Anm", ""⟩)]
        [Inline.str "Text", Inline.ref "#fn1" "1", Inline.str " rest"] =
      clean_text ("Text" ++
        inline_note_text ⟨"note-fn1", "¹", "Anm", ""⟩ ++ " rest") ∧
    plainBlockText [("fn1", "¹")]
        [Inline.str "Text", Inline.ref "#fn1" "1", Inline.str " rest"] =
      clean_text ("Text" ++ "¹" ++ " rest") := by
  have h := c2_inline_resolution [("fn1", ⟨"note-fn1", "¹", "Anm", ""⟩)]
    [("fn1", "¹")] [⟨"fn1", "¹", "Anm"⟩] "Text" "#fn1" "1" " rest"
    ⟨"note-fn1", "¹", "Anm", ""⟩ "¹" (by decide) (by decide) (by decide)
  exact ⟨h.1.1, h.1.2.2.2.1⟩

/-! ## C1: page visit order -/

/-- Comparison of two nullable page numbers: both present and non-decreasing. -/
def pLe : Option Nat → Option Nat → Prop
  | some a, some b => a ≤ b
  | _, _ => False

instance pLe.decidable : (a b : Option Nat) → Decidable (pLe a b)
  | some a, some b => inferInstanceAs (Decidable (a ≤ b))
  | some _, none => inferInstanceAs (Decidable False)
  | none, some _ => inferInstanceAs (Decidable False)
  | none, none => inferInstanceAs (Decidable False)

/-- Spec-side comparison definition for C1: the in-source-order concatenation
of the per-page prose outputs (failing where the page-number parse fails). -/
def sourceOrderConcat : List Page → Option (List Frag)
  | [] => some []
  | pg :: rest =>
    match parse_page_num pg.idAttr with
    | none => none
    | some pn =>
      match sourceOrderConcat rest with
      | none => none
      | some more => some (processPlainPage pg pn ++ more)

/-- C1 (amended): `process_pages` visits the page containers in source
document order, with no sort — on table-free documents the emitted fragment
sequence is exactly the in-source-order concatenation of the per-page outputs,
so it is ascending by page number only when the source container order is. -/
theorem c1_source_order : ∀ pgs : List Page,
    (∀ pg ∈ pgs, isTablePage pg = false) →
    process_pages pgs = sourceOrderConcat pgs := by
  intro pgs h
  unfold process_pages
  induction pgs with
  | nil => rfl
  | cons pg rest ih =>
    have hpg : isTablePage pg = false := h pg (List.mem_cons_self pg rest)
    have hrest := ih (fun q hq => h q (List.mem_cons_of_mem _ hq))
    unfold processPagesGo sourceOrderConcat
    cases hp : parse_page_num pg.idAttr with
    | none => rfl
    | some pn =>
      rw [hpg]
      simp only [Bool.false_eq_true, if_false]
      have hact : initCP.active = false := rfl
      rw [hact]
      simp only [Bool.false_eq_true, if_false]
      rw [hrest]
      cases hm : sourceOrderConcat rest with
      | none => rfl
      | some frs => rfl

/-- C1 (counterexample): a document whose page containers appear as page 2
then page 1 emits its fragments in that source order — the emitted sequence is
not ascending by page number. -/
theorem c1_counterexample :
    (process_pages [⟨"page-2", [Child.block "p" [Inline.str "b"]]⟩,
        ⟨"page-1", [Child.block "p" [Inline.str "a"]]⟩]).map
      (fun l => l.map Frag.page) = some [some 2, some 1] ∧
    ¬ List.Pairwise pLe [some 2, some 1] := by
  constructor
  · decide
  · intro h
    have h12 := (List.pairwise_cons.mp h).1 (some 1) (by simp)
    exact absurd h12 (by decide)

/-- C1 witness: the source-order theorem instantiated on a concrete two-page
table-free document. -/
theorem c1_source_order_witness :
    process_pages [⟨"page-1", [Child.block "p" [Inline.str "a"]]⟩,
        ⟨"page-2", [Child.block "p" [Inline.str "b"]]⟩] =
      sourceOrderConcat [⟨"page-1", [Child.block "p" [Inline.str "a"]]⟩,
        ⟨"page-2", [Child.block "p" [Inline.str "b"]]⟩] :=
  c1_source_order _ (by decide)

/-! ## Merger step equations -/

theorem mergeGo_nil_none : mergeGo none [] = [] := rfl

theorem mergeGo_nil_some (c : Frag) : mergeGo (some c) [] = [finishCur c] := rfl

theorem mergeGo_cons_empty (cur : Option Frag) (f : Frag) (rest : List Frag)
    (h : f.text = "") : mergeGo cur (f :: rest) = mergeGo cur rest := by
  cases cur <;> simp [mergeGo, h]

theorem mergeGo_cons_tc_none (f : Frag) (rest : List Frag) (h1 : f.text ≠ "")
    (h2 : f.origin = "table-cell") :
    mergeGo none (f :: rest) = clone_fragment f :: mergeGo none rest := by
  simp [mergeGo, h1, h2]

theorem mergeGo_cons_tc_some (c f : Frag) (rest : List Frag) (h1 : f.text ≠ "")
    (h2 : f.origin = "table-cell") :
    mergeGo (some c) (f :: rest) =
      finishCur c :: clone_fragment f :: mergeGo none rest := by
  simp [mergeGo, h1, h2]

theorem mergeGo_cons_start (f : Frag) (rest : List Frag) (h1 : f.text ≠ "")
    (h2 : f.origin ≠ "table-cell") :
    mergeGo none (f :: rest) = mergeGo (some (startCur f)) rest := by
  simp [mergeGo, h1, h2]

theorem mergeGo_cons_mismatch (c f : Frag) (rest : List Frag) (h1 : f.text ≠ "")
    (h2 : f.origin ≠ "table-cell")
    (h3 : c.lang ≠ f.lang ∨ c.show_by_default ≠ f.show_by_default ∨
      c.origin ≠ f.origin) :
    mergeGo (some c) (f :: rest) =
      finishCur c :: mergeGo (some (startCur f)) rest := by
  simp [mergeGo, h1, h2, h3]

theorem mergeGo_cons_nomerge (c f : Frag) (rest : List Frag) (h1 : f.text ≠ "")
    (h2 : f.origin ≠ "table-cell")
    (h3 : ¬(c.lang ≠ f.lang ∨ c.show_by_default ≠ f.show_by_default ∨
      c.origin ≠ f.origin))
    (h4 : should_merge c.text f.text = false) :
    mergeGo (some c) (f :: rest) =
      finishCur c :: mergeGo (some (startCur f)) rest := by
  simp only [mergeGo, h1, if_neg h1, if_neg h2, if_neg h3, h4]
  simp

theorem mergeGo_cons_absorb (c f : Frag) (rest : List Frag) (h1 : f.text ≠ "")
    (h2 : f.origin ≠ "table-cell")
    (h3 : ¬(c.lang ≠ f.lang ∨ c.show_by_default ≠ f.show_by_default ∨
      c.origin ≠ f.origin))
    (h4 : should_merge c.text f.text = true) :
    mergeGo (some c) (f :: rest) = mergeGo (some (absorb c f)) rest := by
  simp [mergeGo, h1, h2, h3, h4]

/-! ## Whitespace / first-alpha infrastructure -/

theorem ws_cases (c : Char) (h : pyWs c = true) :
    c = ' ' ∨ c = '\t' ∨ c = '\r' ∨ c = '\n' := by
  unfold pyWs Char.isWhitespace at h
  simpa [or_assoc] using h

theorem alpha_not_ws (c : Char) (h : pyIsAlpha c = true) : pyWs c = false := by
  cases hw : pyWs c
  · rfl
  · rcases ws_cases c hw with h1 | h1 | h1 | h1 <;> subst h1 <;>
      exact absurd h (by decide)

theorem find?_filter_of_imp (p q : Char → Bool)
    (himp : ∀ c, p c = true → q c = true) :
    ∀ l : List Char, (l.filter q).find? p = l.find? p := by
  intro l
  induction l with
  | nil => rfl
  | cons c rest ih =>
    cases hq : q c
    · have hp : p c = false := by
        cases hp : p c
        · rfl
        · rw [himp c hp] at hq; cases hq
      simp [List.filter_cons, hq, List.find?, hp, ih]
    · cases hp : p c <;> simp [List.filter_cons, hq, List.find?, hp, ih]

theorem filter_map_wsToSpace (l : List Char) :
    (l.map wsToSpace).filter (fun c => !pyWs c) =
      l.filter (fun c => !pyWs c) := by
  induction l with
  | nil => rfl
  | cons c rest ih =>
    cases hw : pyWs c
    · have h1 : wsToSpace c = c := by simp [wsToSpace, hw]
      simp [h1, hw, ih, List.filter_cons]
    · have h1 : wsToSpace c = ' ' := by simp [wsToSpace, hw]
      have h2 : pyWs ' ' = true := by decide
      simp [h1, hw, h2, ih, List.filter_cons]

theorem filter_squeeze (l : List Char) :
    (squeeze l).filter (fun c => !pyWs c) = l.filter (fun c => !pyWs c) := by
  induction l with
  | nil => rfl
  | cons a rest ih =>
    cases rest with
    | nil => rfl
    | cons b tail =>
      by_cases hab : a = ' ' ∧ b = ' '
      · have ha : pyWs a = true := by rw [hab.1]; decide
        rw [show squeeze (a :: b :: tail) = squeeze (b :: tail) by
          simp [squeeze, hab]]
        rw [ih]
        simp [List.filter_cons, ha]
      · rw [show squeeze (a :: b :: tail) = a :: squeeze (b :: tail) by
          simp [squeeze, hab]]
        simp [List.filter_cons, ih]

theorem filter_dropWhile_ws (l : List Char) :
    ((l.dropWhile pyWs).filter fun c => !pyWs c) =
      l.filter (fun c => !pyWs c) := by
  induction l with
  | nil => rfl
  | cons c rest ih =>
    cases hw : pyWs c
    · simp [List.dropWhile_cons, hw]
    · simp [List.dropWhile_cons, hw, ih, List.filter_cons]

theorem filter_rstripL (l : List Char) :
    ((rstripL l).filter fun c => !pyWs c) = l.filter (fun c => !pyWs c) := by
  unfold rstripL
  rw [List.filter_reverse, filter_dropWhile_ws, List.filter_reverse,
    List.reverse_reverse]

theorem filter_cleanTextL (l : List Char) :
    ((cleanTextL l).filter fun c => !pyWs c) = l.filter (fun c => !pyWs c) := by
  unfold cleanTextL stripL lstripL
  rw [filter_rstripL, filter_dropWhile_ws, filter_squeeze, filter_map_wsToSpace]

theorem find?_alpha_of_filter (l : List Char) :
    l.find? pyIsAlpha = (l.filter (fun c => !pyWs c)).find? pyIsAlpha :=
  (find?_filter_of_imp pyIsAlpha (fun c => !pyWs c)
    (fun c h => by simp [alpha_not_ws c h]) l).symm

theorem find?_alpha_cleanTextL (l : List Char) :
    (cleanTextL l).find? pyIsAlpha = l.find? pyIsAlpha := by
  rw [find?_alpha_of_filter (cleanTextL l), filter_cleanTextL,
    ← find?_alpha_of_filter]

theorem first_alpha_clean (s : String) :
    first_alpha_character (clean_text s) = first_alpha_character s :=
  find?_alpha_cleanTextL s.data

theorem find?_alpha_append_left (l1 l2 : List Char) (a : Char)
    (h : l1.find? pyIsAlpha = some a) :
    (l1 ++ l2).find? pyIsAlpha = some a := by
  rw [List.find?_append, h]
  rfl

theorem find?_alpha_lstrip (l : List Char) :
    (lstripL l).find? pyIsAlpha = l.find? pyIsAlpha := by
  unfold lstripL
  induction l with
  | nil => rfl
  | cons c rest ih =>
    cases hw : pyWs c
    · simp [List.dropWhile_cons, hw]
    · have hna : pyIsAlpha c = false := by
        cases ha : pyIsAlpha c
        · rfl
        · rw [alpha_not_ws c ha] at hw; cases hw
      simp [List.dropWhile_cons, hw, hna, List.find?, ih]

theorem should_merge_ext (a b b' : String)
    (h : first_alpha_character b = first_alpha_character b') :
    should_merge a b = should_merge a b' := by
  unfold should_merge
  rw [show (lstripL b.data).find? pyIsAlpha =
      (lstripL b'.data).find? pyIsAlpha from by
    rw [find?_alpha_lstrip, find?_alpha_lstrip]; exact h]

/-! ## Non-emptiness through cleaning -/

theorem cleanTextL_ne_nil (l : List Char)
    (h : l.filter (fun c => !pyWs c) ≠ []) : cleanTextL l ≠ [] := by
  intro he
  apply h
  rw [← filter_cleanTextL l, he]
  rfl

theorem rstripL_ne_nil_filter (l : List Char) (h : rstripL l ≠ []) :
    l.filter (fun c => !pyWs c) ≠ [] := by
  intro he
  apply h
  have hall : ∀ c ∈ l, pyWs c = true := by
    intro c hc
    cases hw : pyWs c
    · refine absurd (List.mem_filter.mpr ⟨hc, ?_⟩) (by rw [he]; simp)
      show (!pyWs c) = true
      rw [hw]
      rfl
    · rfl
  unfold rstripL
  rw [List.dropWhile_eq_nil_iff.mpr (fun c hc => hall c (List.mem_reverse.mp hc))]
  rfl

theorem should_merge_true_rstrip (a b : String)
    (h : should_merge a b = true) : rstripL a.data ≠ [] := by
  intro he
  unfold should_merge at h
  rw [he] at h
  cases h

theorem clean_append_ne (a b : String)
    (h : a.data.filter (fun c => !pyWs c) ≠ []) : clean_text (a ++ b) ≠ "" := by
  intro he
  have hd : cleanTextL (a ++ b).data = [] := congrArg String.data he
  apply cleanTextL_ne_nil (a ++ b).data ?_ hd
  rw [String.data_append, List.filter_append]
  intro hne
  exact h (List.append_eq_nil.mp hne).1

/-! ## Field lemmas for the merger's accumulator operations -/

theorem startCur_text (f : Frag) : (startCur f).text = f.text := by
  by_cases h : f.pages.isEmpty <;> simp [startCur, clone_fragment, h]

theorem startCur_lang (f : Frag) : (startCur f).lang = f.lang := by
  by_cases h : f.pages.isEmpty <;> simp [startCur, clone_fragment, h]

theorem startCur_show (f : Frag) :
    (startCur f).show_by_default = f.show_by_default := by
  by_cases h : f.pages.isEmpty <;> simp [startCur, clone_fragment, h]

theorem startCur_origin (f : Frag) : (startCur f).origin = f.origin := by
  by_cases h : f.pages.isEmpty <;> simp [startCur, clone_fragment, h]

theorem startCur_notes (f : Frag) : (startCur f).notes = f.notes := by
  by_cases h : f.pages.isEmpty <;> simp [startCur, clone_fragment, h]

theorem startCur_page (f : Frag) : (startCur f).page = f.page := by
  by_cases h : f.pages.isEmpty <;> simp [startCur, clone_fragment, h]

theorem startCur_pages_ne_nil (f : Frag) : (startCur f).pages ≠ [] := by
  by_cases h : f.pages.isEmpty <;> simp [startCur, clone_fragment, h]
  simpa [List.isEmpty_iff] using h

theorem startCur_pages_of_ne (f : Frag) (h : f.pages ≠ []) :
    (startCur f).pages = f.pages := by
  have he : f.pages.isEmpty = false := by simpa [List.isEmpty_iff] using h
  simp [startCur, clone_fragment, he]

theorem startCur_eq_self (f : Frag) (h : f.pages ≠ []) : startCur f = f := by
  have he : f.pages.isEmpty = false := by simpa [List.isEmpty_iff] using h
  simp [startCur, clone_fragment, he]

theorem finishCur_text (c : Frag) : (finishCur c).text = c.text := rfl

theorem finishCur_lang (c : Frag) : (finishCur c).lang = c.lang := rfl

theorem finishCur_show (c : Frag) :
    (finishCur c).show_by_default = c.show_by_default := rfl

theorem finishCur_origin (c : Frag) : (finishCur c).origin = c.origin := rfl

theorem finishCur_notes (c : Frag) : (finishCur c).notes = c.notes := rfl

theorem finishCur_pages (c : Frag) : (finishCur c).pages = c.pages := rfl

theorem finishCur_idem (c : Frag) : finishCur (finishCur c) = finishCur c := by
  unfold finishCur
  cases c.pages <;> rfl

theorem finishCur_eq_self (c : Frag) (h : c.pages.head? = some c.page) :
    finishCur c = c := by
  obtain ⟨t, n, lg, sh, pg, pgs, o⟩ := c
  unfold finishCur
  dsimp only [] at h ⊢
  cases pgs with
  | nil => cases h
  | cons p rest =>
    have hpc : p = pg := by simpa using h
    subst hpc
    rfl

theorem finishCur_head (c : Frag) (h : c.pages ≠ []) :
    (finishCur c).pages.head? = some (finishCur c).page := by
  unfold finishCur
  cases hp : c.pages with
  | nil => exact absurd hp h
  | cons p rest => rfl

theorem absorb_text (c f : Frag) :
    (absorb c f).text = clean_text (c.text ++ " " ++ f.text) := rfl

theorem absorb_lang (c f : Frag) : (absorb c f).lang = c.lang := rfl

theorem absorb_show (c f : Frag) :
    (absorb c f).show_by_default = c.show_by_default := rfl

theorem absorb_origin (c f : Frag) : (absorb c f).origin = c.origin := rfl

theorem absorb_pages (c f : Frag) :
    (absorb c f).pages =
      absorbPages c.pages (if f.pages.isEmpty then [f.page] else f.pages) := rfl

/-! ## absorbPages structure -/

theorem absorbPages_cons_pos (cur : List (Option Nat)) (p : Option Nat)
    (ps : List (Option Nat)) (h : p ≠ none ∧ cur.getLast? ≠ some p) :
    absorbPages cur (p :: ps) = absorbPages (cur ++ [p]) ps := by
  simp only [absorbPages]
  rw [if_pos h]

theorem absorbPages_cons_neg (cur : List (Option Nat)) (p : Option Nat)
    (ps : List (Option Nat)) (h : ¬(p ≠ none ∧ cur.getLast? ≠ some p)) :
    absorbPages cur (p :: ps) = absorbPages cur ps := by
  simp only [absorbPages]
  rw [if_neg h]

theorem absorbPages_spec : ∀ (ps cur : List (Option Nat)),
    ∃ ext, absorbPages cur ps = cur ++ ext ∧ List.Sublist ext ps := by
  intro ps
  induction ps with
  | nil => exact fun cur => ⟨[], by simp [absorbPages]⟩
  | cons p rest ih =>
    intro cur
    by_cases hcond : p ≠ none ∧ cur.getLast? ≠ some p
    · rw [absorbPages_cons_pos cur p rest hcond]
      obtain ⟨ext, hext, hsub⟩ := ih (cur ++ [p])
      exact ⟨p :: ext, by rw [hext]; simp, List.Sublist.cons₂ p hsub⟩
    · rw [absorbPages_cons_neg cur p rest hcond]
      obtain ⟨ext, hext, hsub⟩ := ih cur
      exact ⟨ext, hext, List.Sublist.cons p hsub⟩

theorem absorbPages_ne_nil (cur ps : List (Option Nat)) (h : cur ≠ []) :
    absorbPages cur ps ≠ [] := by
  obtain ⟨ext, hext, _⟩ := absorbPages_spec ps cur
  rw [hext]
  intro he
  exact h (List.append_eq_nil.mp he).1

theorem absorbPages_chain : ∀ (ps cur : List (Option Nat)),
    List.Chain' (· ≠ ·) cur → List.Chain' (· ≠ ·) (absorbPages cur ps) := by
  intro ps
  induction ps with
  | nil => exact fun cur h => h
  | cons p rest ih =>
    intro cur hc
    by_cases hcond : p ≠ none ∧ cur.getLast? ≠ some p
    · rw [absorbPages_cons_pos cur p rest hcond]
      refine ih (cur ++ [p]) ?_
      rw [List.chain'_append]
      refine ⟨hc, List.chain'_singleton p, ?_⟩
      intro x hx y hy
      have hyp : y = p := by simpa [eq_comm] using hy
      subst hyp
      intro hxy
      exact hcond.2 (by rw [← hxy]; exact hx)
    · rw [absorbPages_cons_neg cur p rest hcond]
      exact ih cur hc

/-! ## C10: empty fragments are dropped, outputs are non-empty -/

theorem absorb_text_ne (c f : Frag) (h : should_merge c.text f.text = true) :
    (absorb c f).text ≠ "" := by
  rw [absorb_text]
  rw [show c.text ++ " " ++ f.text = c.text ++ (" " ++ f.text) from
    String.append_assoc c.text " " f.text]
  exact clean_append_ne c.text (" " ++ f.text)
    (rstripL_ne_nil_filter c.text.data (should_merge_true_rstrip _ _ h))

theorem mergeGo_text_ne : ∀ (fs : List Frag) (cur : Option Frag),
    (∀ c, cur = some c → c.text ≠ "") → ∀ P ∈ mergeGo cur fs, P.text ≠ "" := by
  intro fs
  induction fs with
  | nil =>
    intro cur hcur P hP
    cases cur with
    | none => cases hP
    | some c =>
      rw [mergeGo_nil_some] at hP
      have : P = finishCur c := by simpa using hP
      rw [this, finishCur_text]
      exact hcur c rfl
  | cons f rest ih =>
    intro cur hcur P hP
    by_cases h1 : f.text = ""
    · rw [mergeGo_cons_empty cur f rest h1] at hP
      exact ih cur hcur P hP
    · by_cases h2 : f.origin = "table-cell"
      · cases cur with
        | none =>
          rw [mergeGo_cons_tc_none f rest h1 h2] at hP
          rcases List.mem_cons.mp hP with hP | hP
          · rw [hP, clone_fragment_eq]; exact h1
          · exact ih none (by intro c hc; cases hc) P hP
        | some c =>
          rw [mergeGo_cons_tc_some c f rest h1 h2] at hP
          rcases List.mem_cons.mp hP with hP | hP
          · rw [hP, finishCur_text]; exact hcur c rfl
          · rcases List.mem_cons.mp hP with hP | hP
            · rw [hP, clone_fragment_eq]; exact h1
            · exact ih none (by intro c hc; cases hc) P hP
      · cases cur with
        | none =>
          rw [mergeGo_cons_start f rest h1 h2] at hP
          refine ih (some (startCur f)) ?_ P hP
          intro c hc
          have : c = startCur f := by injection hc.symm
          rw [this, startCur_text]
          exact h1
        | some c =>
          by_cases h3 : c.lang ≠ f.lang ∨ c.show_by_default ≠ f.show_by_default ∨
            c.origin ≠ f.origin
          · rw [mergeGo_cons_mismatch c f rest h1 h2 h3] at hP
            rcases List.mem_cons.mp hP with hP | hP
            · rw [hP, finishCur_text]; exact hcur c rfl
            · refine ih (some (startCur f)) ?_ P hP
              intro d hd
              have : d = startCur f := by injection hd.symm
              rw [this, startCur_text]
              exact h1
          · cases h4 : should_merge c.text f.text with
            | false =>
              rw [mergeGo_cons_nomerge c f rest h1 h2 h3 h4] at hP
              rcases List.mem_cons.mp hP with hP | hP
              · rw [hP, finishCur_text]; exact hcur c rfl
              · refine ih (some (startCur f)) ?_ P hP
                intro d hd
                have : d = startCur f := by injection hd.symm
                rw [this, startCur_text]
                exact h1
            | true =>
              rw [mergeGo_cons_absorb c f rest h1 h2 h3 h4] at hP
              refine ih (some (absorb c f)) ?_ P hP
              intro d hd
              have : d = absorb c f := by injection hd.symm
              rw [this]
              exact absorb_text_ne c f h4

/-- C10: `merge_fragments` silently drops every input fragment whose text is
empty — in particular a table-cell fragment with empty text disappears
entirely, its notes and pages lost — and consequently every emitted paragraph
has non-empty text. -/
theorem c10_empty_dropped :
    (∀ (fs : List Frag), ∀ P ∈ merge_fragments fs, P.text ≠ "") ∧
    merge_fragments
      [⟨"", [⟨"note-x", "¹", "lost note", ""⟩], "de", false, some 5,
        [some 5], "table-cell"⟩] = [] := by
  constructor
  · intro fs P hP
    exact mergeGo_text_ne fs none (by intro c hc; cases hc) P hP
  · rfl

/-- C10 witness: the non-emptiness statement applied to a concrete run whose
output is one merged paragraph. -/
theorem c10_empty_dropped_witness :
    (⟨"a b", [], "de", true, some 1, [some 1], "prose-block"⟩ : Frag) ∈
      merge_fragments
        [⟨"a", [], "de", true, some 1, [some 1], "prose-block"⟩,
         ⟨"", [], "de", true, some 1, [some 1], "prose-block"⟩,
         ⟨"b", [], "de", true, some 1, [some 1], "prose-block"⟩] ∧
    (⟨"a b", [], "de", true, some 1, [some 1], "prose-block"⟩ : Frag).text ≠
      "" :=
  ⟨by decide,
    c10_empty_dropped.1
      [⟨"a", [], "de", true, some 1, [some 1], "prose-block"⟩,
       ⟨"", [], "de", true, some 1, [some 1], "prose-block"⟩,
       ⟨"b", [], "de", true, some 1, [some 1], "prose-block"⟩]
      ⟨"a b", [], "de", true, some 1, [some 1], "prose-block"⟩ (by decide)⟩

/-! ## C7: pages-list invariants of merged paragraphs -/

/-- Concatenation of the `pages` lists of a fragment sequence, in order. -/
def pagesConcat : List Frag → List (Option Nat)
  | [] => []
  | f :: rest => f.pages ++ pagesConcat rest

/-- Per-fragment well-formedness of the pages data, as the pipeline produces
it: a non-empty `pages` list without two consecutive equal entries whose head
is the fragment's `page`. -/
def GoodFrag (f : Frag) : Prop :=
  f.pages ≠ [] ∧ List.Chain' (· ≠ ·) f.pages ∧ f.pages.head? = some f.page

/-- The pages invariant of an emitted paragraph: `pages` non-decreasing (all
entries present), no two consecutive equal entries, non-empty, and
`page = pages[0]`. -/
def PagesInv (P : Frag) : Prop :=
  List.Pairwise pLe P.pages ∧ List.Chain' (· ≠ ·) P.pages ∧
    P.pages.head? = some P.page

theorem pagesInv_finish (c : Frag) (hne : c.pages ≠ [])
    (hch : List.Chain' (· ≠ ·) c.pages) (hpw : List.Pairwise pLe c.pages) :
    PagesInv (finishCur c) := by
  refine ⟨?_, ?_, finishCur_head c hne⟩
  · rw [finishCur_pages]; exact hpw
  · rw [finishCur_pages]; exact hch

theorem pairwise_of_append_left {l1 l2 : List (Option Nat)}
    (h : List.Pairwise pLe (l1 ++ l2)) : List.Pairwise pLe l1 :=
  h.sublist (by simp)

theorem pairwise_drop_left (l1 l2 : List (Option Nat))
    (h : List.Pairwise pLe (l1 ++ l2)) : List.Pairwise pLe l2 :=
  h.sublist (by simp)

theorem pairwise_of_append_right {l1 l2 : List (Option Nat)}
    (h : List.Pairwise pLe (l1 ++ l2)) : List.Pairwise pLe l2 :=
  h.sublist (by simp)

theorem mergeGo_pages_inv : ∀ (fs : List Frag) (cur : Option Frag),
    (∀ f ∈ fs, GoodFrag f) →
    (match cur with
     | none => List.Pairwise pLe (pagesConcat fs)
     | some c => c.pages ≠ [] ∧ List.Chain' (· ≠ ·) c.pages ∧
         List.Pairwise pLe (c.pages ++ pagesConcat fs)) →
    ∀ P ∈ mergeGo cur fs, PagesInv P := by
  intro fs
  induction fs with
  | nil =>
    intro cur hg hc P hP
    cases cur with
    | none => cases hP
    | some c =>
      rw [mergeGo_nil_some] at hP
      have hPc : P = finishCur c := by simpa using hP
      rw [hPc]
      obtain ⟨hne, hch, hpw⟩ := hc
      refine pagesInv_finish c hne hch ?_
      rw [show pagesConcat [] = [] from rfl] at hpw
      simpa using hpw
  | cons f rest ih =>
    intro cur hg hc P hP
    have hgf : GoodFrag f := hg f (List.mem_cons_self f rest)
    have hgr : ∀ q ∈ rest, GoodFrag q :=
      fun q hq => hg q (List.mem_cons_of_mem _ hq)
    have hconcat : pagesConcat (f :: rest) = f.pages ++ pagesConcat rest := rfl
    by_cases h1 : f.text = ""
    · rw [mergeGo_cons_empty cur f rest h1] at hP
      refine ih cur hgr ?_ P hP
      cases cur with
      | none =>
        rw [hconcat] at hc
        exact pairwise_of_append_right hc
      | some c =>
        obtain ⟨hne, hch, hpw⟩ := hc
        rw [hconcat] at hpw
        refine ⟨hne, hch, ?_⟩
        refine hpw.sublist ?_
        exact List.Sublist.append (List.Sublist.refl c.pages)
          (List.sublist_append_right f.pages (pagesConcat rest))
    · by_cases h2 : f.origin = "table-cell"
      · have hinvf : PagesInv (clone_fragment f) := by
          rw [clone_fragment_eq]
          refine ⟨?_, hgf.2.1, hgf.2.2⟩
          cases cur with
          | none =>
            rw [hconcat] at hc
            exact pairwise_of_append_left hc
          | some c =>
            obtain ⟨_, _, hpw⟩ := hc
            rw [hconcat, ← List.append_assoc] at hpw
            exact pairwise_of_append_left (pairwise_drop_left c.pages _
              (by rwa [List.append_assoc] at hpw))
        have hrest_pw : List.Pairwise pLe (pagesConcat rest) := by
          cases cur with
          | none =>
            rw [hconcat] at hc
            exact pairwise_of_append_right hc
          | some c =>
            obtain ⟨_, _, hpw⟩ := hc
            rw [hconcat] at hpw
            exact pairwise_of_append_right (pairwise_drop_left c.pages _ hpw)
        cases cur with
        | none =>
          rw [mergeGo_cons_tc_none f rest h1 h2] at hP
          rcases List.mem_cons.mp hP with hP | hP
          · rw [hP]; exact hinvf
          · exact ih none hgr hrest_pw P hP
        | some c =>
          rw [mergeGo_cons_tc_some c f rest h1 h2] at hP
          obtain ⟨hne, hch, hpw⟩ := hc
          rcases List.mem_cons.mp hP with hP | hP
          · rw [hP]
            exact pagesInv_finish c hne hch (pairwise_of_append_left hpw)
          · rcases List.mem_cons.mp hP with hP | hP
            · rw [hP]; exact hinvf
            · exact ih none hgr hrest_pw P hP
      · have hstart : (startCur f).pages = f.pages :=
          startCur_pages_of_ne f hgf.1
        cases cur with
        | none =>
          rw [mergeGo_cons_start f rest h1 h2] at hP
          refine ih (some (startCur f)) hgr ?_ P hP
          show (startCur f).pages ≠ [] ∧
            List.Chain' (· ≠ ·) (startCur f).pages ∧
            List.Pairwise pLe ((startCur f).pages ++ pagesConcat rest)
          rw [hstart]
          rw [hconcat] at hc
          exact ⟨hgf.1, hgf.2.1, hc⟩
        | some c =>
          obtain ⟨hne, hch, hpw⟩ := hc
          rw [hconcat] at hpw
          have hnext : (startCur f).pages ≠ [] ∧
              List.Chain' (· ≠ ·) (startCur f).pages ∧
              List.Pairwise pLe ((startCur f).pages ++ pagesConcat rest) := by
            rw [hstart]
            exact ⟨hgf.1, hgf.2.1, pairwise_drop_left c.pages _ hpw⟩
          by_cases h3 : c.lang ≠ f.lang ∨ c.show_by_default ≠ f.show_by_default ∨
            c.origin ≠ f.origin
          · rw [mergeGo_cons_mismatch c f rest h1 h2 h3] at hP
            rcases List.mem_cons.mp hP with hP | hP
            · rw [hP]
              exact pagesInv_finish c hne hch (pairwise_of_append_left hpw)
            · exact ih (some (startCur f)) hgr hnext P hP
          · cases h4 : should_merge c.text f.text with
            | false =>
              rw [mergeGo_cons_nomerge c f rest h1 h2 h3 h4] at hP
              rcases List.mem_cons.mp hP with hP | hP
              · rw [hP]
                exact pagesInv_finish c hne hch (pairwise_of_append_left hpw)
              · exact ih (some (startCur f)) hgr hnext P hP
            | true =>
              rw [mergeGo_cons_absorb c f rest h1 h2 h3 h4] at hP
              refine ih (some (absorb c f)) hgr ?_ P hP
              have hfe : f.pages.isEmpty = false := by
                simpa [List.isEmpty_iff] using hgf.1
              have habs : (absorb c f).pages = absorbPages c.pages f.pages := by
                rw [absorb_pages, hfe]
                rfl
              obtain ⟨ext, hext, hsub⟩ := absorbPages_spec f.pages c.pages
              refine ⟨?_, ?_, ?_⟩
              · rw [habs]
                exact absorbPages_ne_nil c.pages f.pages hne
              · rw [habs]
                exact absorbPages_chain f.pages c.pages hch
              · rw [habs, hext, List.append_assoc]
                refine hpw.sublist ?_
                exact List.Sublist.append (List.Sublist.refl c.pages)
                  (List.Sublist.append hsub (List.Sublist.refl (pagesConcat rest)))

/-- C7 (amended): provided each input fragment's pages data is well-formed
(non-empty, no two consecutive equal entries, head equal to `page`) and the
concatenation of the input fragments' pages lists is non-decreasing, every
paragraph emitted by `merge_fragments` has a non-decreasing pages list with no
two consecutive equal entries, non-empty (hence non-empty whenever `page` is
non-null), with `page == pages[0]`. -/
theorem c7_pages_invariant : ∀ fs : List Frag,
    (∀ f ∈ fs, GoodFrag f) →
    List.Pairwise pLe (pagesConcat fs) →
    ∀ P ∈ merge_fragments fs, PagesInv P := by
  intro fs hg hpw P hP
  exact mergeGo_pages_inv fs none hg hpw P hP

/-- C7 (counterexample): two mergeable prose fragments arriving as page 2 then
page 1 merge into a paragraph whose pages list `[2, 1]` is decreasing — the
claim's non-decreasing invariant fails on `merge_fragments` as stated. -/
theorem c7_counterexample :
    (merge_fragments
        [⟨"a", [], "de", true, some 2, [some 2], "prose-block"⟩,
         ⟨"b", [], "de", true, some 1, [some 1], "prose-block"⟩]).map Frag.pages
      = [[some 2, some 1]] ∧
    ¬ List.Pairwise pLe [some 2, some 1] := by
  constructor
  · decide
  · intro h
    exact absurd ((List.pairwise_cons.mp h).1 (some 1) (by simp)) (by decide)

/-- C7 witness: the invariant theorem applied to a concrete well-formed
ascending run and its merged paragraph. -/
theorem c7_pages_invariant_witness :
    (⟨"a b", [], "de", true, some 1, [some 1, some 2], "prose-block"⟩ : Frag) ∈
      merge_fragments
        [⟨"a", [], "de", true, some 1, [some 1], "prose-block"⟩,
         ⟨"b", [], "de", true, some 2, [some 2], "prose-block"⟩] ∧
    PagesInv ⟨"a b", [], "de", true, some 1, [some 1, some 2], "prose-block"⟩ :=
  ⟨by decide,
    c7_pages_invariant
      [⟨"a", [], "de", true, some 1, [some 1], "prose-block"⟩,
       ⟨"b", [], "de", true, some 2, [some 2], "prose-block"⟩]
      (by intro f hf
          rcases List.mem_cons.mp hf with h | h
          · rw [h]; exact ⟨by decide, List.chain'_singleton _, by decide⟩
          · have : f = ⟨"b", [], "de", true, some 2, [some 2], "prose-block"⟩ :=
              by simpa using h
            rw [this]; exact ⟨by decide, List.chain'_singleton _, by decide⟩)
      (by decide)
      ⟨"a b", [], "de", true, some 1, [some 1, some 2], "prose-block"⟩
      (by decide)⟩

/-! ## C6: idempotence of the merger -/

/-- A boundary across which a re-run of the merger will not merge: one side is
a table-cell, the continuity keys differ, or the sentence-boundary heuristic
rejects the pair. -/
def NoMerge (p q : Frag) : Prop :=
  p.origin = "table-cell" ∨ q.origin = "table-cell" ∨
    p.lang ≠ q.lang ∨ p.show_by_default ≠ q.show_by_default ∨
    p.origin ≠ q.origin ∨ should_merge p.text q.text = false

/-- A fragment a re-run of the merger passes through unchanged: non-empty
text, and (unless it is a table-cell) a non-empty pages list headed by its
`page`. -/
def Settled (f : Frag) : Prop :=
  f.text ≠ "" ∧ (f.origin = "table-cell" ∨
    (f.pages ≠ [] ∧ f.pages.head? = some f.page))

/-- A fragment whose text contains an alphabetic character. -/
def AlphaFrag (f : Frag) : Prop := first_alpha_character f.text ≠ none

theorem alphaFrag_text_ne {f : Frag} (h : AlphaFrag f) : f.text ≠ "" := by
  intro he
  apply h
  rw [he]
  rfl

/-- Merging an all-settled list whose adjacent boundaries are all `NoMerge`
reproduces the list exactly. -/
theorem mergeGo_of_settled : ∀ L : List Frag,
    (∀ f ∈ L, Settled f) → List.Chain' NoMerge L →
    (mergeGo none L = L ∧
      ∀ c : Frag, c.text ≠ "" → c.origin ≠ "table-cell" → c.pages ≠ [] →
        c.pages.head? = some c.page → (∀ y ∈ L.head?, NoMerge c y) →
        mergeGo (some c) L = c :: L) := by
  intro L
  induction L with
  | nil =>
    intro _ _
    refine ⟨rfl, ?_⟩
    intro c hct hco hcp hch _
    rw [mergeGo_nil_some, finishCur_eq_self c hch]
  | cons f L' ih =>
    intro hs hchain
    have hsf : Settled f := hs f (List.mem_cons_self f L')
    have hsL : ∀ q ∈ L', Settled q :=
      fun q hq => hs q (List.mem_cons_of_mem _ hq)
    have hchain' := List.chain'_cons'.mp hchain
    obtain ⟨ihn, ihs⟩ := ih hsL hchain'.2
    have h1 : f.text ≠ "" := hsf.1
    constructor
    · by_cases h2 : f.origin = "table-cell"
      · rw [mergeGo_cons_tc_none f L' h1 h2, clone_fragment_eq, ihn]
      · rcases hsf.2 with h | hpr
        · exact absurd h h2
        · rw [mergeGo_cons_start f L' h1 h2, startCur_eq_self f hpr.1]
          exact ihs f h1 h2 hpr.1 hpr.2 hchain'.1
    · intro c hct hco hcp hch hNM
      have hNMf : NoMerge c f := hNM f rfl
      by_cases h2 : f.origin = "table-cell"
      · rw [mergeGo_cons_tc_some c f L' h1 h2, clone_fragment_eq,
          finishCur_eq_self c hch, ihn]
      · rcases hsf.2 with h | hpr
        · exact absurd h h2
        · have hrec : mergeGo (some (startCur f)) L' = f :: L' := by
            rw [startCur_eq_self f hpr.1]
            exact ihs f h1 h2 hpr.1 hpr.2 hchain'.1
          by_cases h3 : c.lang ≠ f.lang ∨
            c.show_by_default ≠ f.show_by_default ∨ c.origin ≠ f.origin
          · rw [mergeGo_cons_mismatch c f L' h1 h2 h3,
              finishCur_eq_self c hch, hrec]
          · have h4 : should_merge c.text f.text = false := by
              rcases hNMf with h | h | h | h | h | h
              · exact absurd h hco
              · exact absurd h h2
              · exact absurd (Or.inl h) h3
              · exact absurd (Or.inr (Or.inl h)) h3
              · exact absurd (Or.inr (Or.inr h)) h3
              · exact h
            rw [mergeGo_cons_nomerge c f L' h1 h2 h3 h4,
              finishCur_eq_self c hch, hrec]

theorem fa_absorb (c f : Frag) (a : Char)
    (h : first_alpha_character c.text = some a) :
    first_alpha_character (clean_text (c.text ++ " " ++ f.text)) = some a := by
  rw [first_alpha_clean]
  unfold first_alpha_character at h ⊢
  rw [String.data_append, String.data_append]
  exact find?_alpha_append_left _ _ a (find?_alpha_append_left _ _ a h)

/-- The merger's output on alphabetic input: every emitted paragraph is
settled, adjacent boundaries are all `NoMerge`, and a run started from an
accumulator keeps the accumulator's continuity keys and first alphabetic
character on its first emitted paragraph. -/
theorem merge_output_settled : ∀ fs : List Frag,
    ((∀ f ∈ fs, AlphaFrag f) →
      (∀ P ∈ mergeGo none fs, Settled P) ∧
        List.Chain' NoMerge (mergeGo none fs)) ∧
    (∀ c : Frag, (∀ f ∈ fs, AlphaFrag f) → AlphaFrag c → c.pages ≠ [] →
      ∃ P L', mergeGo (some c) fs = P :: L' ∧ P.lang = c.lang ∧
        P.show_by_default = c.show_by_default ∧ P.origin = c.origin ∧
        first_alpha_character P.text = first_alpha_character c.text ∧
        (∀ Q ∈ P :: L', Settled Q) ∧ List.Chain' NoMerge (P :: L')) := by
  intro fs
  induction fs with
  | nil =>
    constructor
    · intro _
      exact ⟨fun P hP => absurd hP (by simp [mergeGo_nil_none]), by
        rw [mergeGo_nil_none]; exact List.chain'_nil⟩
    · intro c _ hca hcp
      refine ⟨finishCur c, [], mergeGo_nil_some c, finishCur_lang c,
        finishCur_show c, finishCur_origin c, by rw [finishCur_text], ?_, ?_⟩
      · intro Q hQ
        have hQc : Q = finishCur c := by simpa using hQ
        rw [hQc]
        refine ⟨by rw [finishCur_text]; exact alphaFrag_text_ne hca, Or.inr ?_⟩
        refine ⟨by rw [finishCur_pages]; exact hcp, finishCur_head c hcp⟩
      · exact List.chain'_singleton _
  | cons f rest ih =>
    obtain ⟨ihn, ihs⟩ := ih
    constructor
    · intro halpha
      have haf : AlphaFrag f := halpha f (List.mem_cons_self f rest)
      have har : ∀ q ∈ rest, AlphaFrag q :=
        fun q hq => halpha q (List.mem_cons_of_mem _ hq)
      have h1 : f.text ≠ "" := alphaFrag_text_ne haf
      by_cases h2 : f.origin = "table-cell"
      · rw [mergeGo_cons_tc_none f rest h1 h2, clone_fragment_eq]
        obtain ⟨hsr, hcr⟩ := ihn har
        refine ⟨?_, ?_⟩
        · intro P hP
          rcases List.mem_cons.mp hP with hP | hP
          · rw [hP]; exact ⟨h1, Or.inl h2⟩
          · exact hsr P hP
        · refine List.chain'_cons'.mpr ⟨?_, hcr⟩
          intro y _
          exact Or.inl h2
      · rw [mergeGo_cons_start f rest h1 h2]
        obtain ⟨P, L', heq, _, _, _, _, hsall, hchain⟩ :=
          ihs (startCur f) har (by rw [AlphaFrag, startCur_text]; exact haf)
            (startCur_pages_ne_nil f)
        rw [heq]
        exact ⟨hsall, hchain⟩
    · intro c halpha hca hcp
      have haf : AlphaFrag f := halpha f (List.mem_cons_self f rest)
      have har : ∀ q ∈ rest, AlphaFrag q :=
        fun q hq => halpha q (List.mem_cons_of_mem _ hq)
      have h1 : f.text ≠ "" := alphaFrag_text_ne haf
      have hsc : Settled (finishCur c) := by
        refine ⟨by rw [finishCur_text]; exact alphaFrag_text_ne hca, Or.inr ?_⟩
        exact ⟨by rw [finishCur_pages]; exact hcp, finishCur_head c hcp⟩
      by_cases h2 : f.origin = "table-cell"
      · rw [mergeGo_cons_tc_some c f rest h1 h2, clone_fragment_eq]
        obtain ⟨hsr, hcr⟩ := ihn har
        refine ⟨finishCur c, f :: mergeGo none rest, rfl, finishCur_lang c,
          finishCur_show c, finishCur_origin c, by rw [finishCur_text], ?_, ?_⟩
        · intro Q hQ
          rcases List.mem_cons.mp hQ with hQ | hQ
          · rw [hQ]; exact hsc
          · rcases List.mem_cons.mp hQ with hQ | hQ
            · rw [hQ]; exact ⟨h1, Or.inl h2⟩
            · exact hsr Q hQ
        · refine List.chain'_cons'.mpr ⟨?_, ?_⟩
          · intro y hy
            have : y = f := by simpa [eq_comm] using hy
            rw [this]
            exact Or.inr (Or.inl h2)
          · refine List.chain'_cons'.mpr ⟨?_, hcr⟩
            intro y _
            exact Or.inl h2
      · by_cases h3 : c.lang ≠ f.lang ∨ c.show_by_default ≠ f.show_by_default ∨
          c.origin ≠ f.origin
        · rw [mergeGo_cons_mismatch c f rest h1 h2 h3]
          obtain ⟨P', L'', heq, hl, hsh, ho, hfa, hsall, hchain⟩ :=
            ihs (startCur f) har (by rw [AlphaFrag, startCur_text]; exact haf)
              (startCur_pages_ne_nil f)
          rw [heq]
          refine ⟨finishCur c, P' :: L'', rfl, finishCur_lang c,
            finishCur_show c, finishCur_origin c, by rw [finishCur_text], ?_, ?_⟩
          · intro Q hQ
            rcases List.mem_cons.mp hQ with hQ | hQ
            · rw [hQ]; exact hsc
            · exact hsall Q hQ
          · refine List.chain'_cons'.mpr ⟨?_, hchain⟩
            intro y hy
            have hyP : y = P' := by simpa [eq_comm] using hy
            rw [hyP]
            rcases h3 with h | h | h
            · refine Or.inr (Or.inr (Or.inl ?_))
              rw [finishCur_lang, hl, startCur_lang]
              exact h
            · refine Or.inr (Or.inr (Or.inr (Or.inl ?_)))
              rw [finishCur_show, hsh, startCur_show]
              exact h
            · refine Or.inr (Or.inr (Or.inr (Or.inr (Or.inl ?_))))
              rw [finishCur_origin, ho, startCur_origin]
              exact h
        · cases h4 : should_merge c.text f.text with
          | false =>
            rw [mergeGo_cons_nomerge c f rest h1 h2 h3 h4]
            obtain ⟨P', L'', heq, hl, hsh, ho, hfa, hsall, hchain⟩ :=
              ihs (startCur f) har (by rw [AlphaFrag, startCur_text]; exact haf)
                (startCur_pages_ne_nil f)
            rw [heq]
            refine ⟨finishCur c, P' :: L'', rfl, finishCur_lang c,
              finishCur_show c, finishCur_origin c, by rw [finishCur_text],
              ?_, ?_⟩
            · intro Q hQ
              rcases List.mem_cons.mp hQ with hQ | hQ
              · rw [hQ]; exact hsc
              · exact hsall Q hQ
            · refine List.chain'_cons'.mpr ⟨?_, hchain⟩
              intro y hy
              have hyP : y = P' := by simpa [eq_comm] using hy
              rw [hyP]
              refine Or.inr (Or.inr (Or.inr (Or.inr (Or.inr ?_))))
              rw [finishCur_text]
              rw [should_merge_ext c.text P'.text f.text (by
                rw [hfa, startCur_text])]
              exact h4
          | true =>
            rw [mergeGo_cons_absorb c f rest h1 h2 h3 h4]
            obtain ⟨a, ha⟩ : ∃ a, first_alpha_character c.text = some a := by
              cases hfc : first_alpha_character c.text with
              | none => exact absurd hfc hca
              | some a => exact ⟨a, rfl⟩
            have hca' : AlphaFrag (absorb c f) := by
              rw [AlphaFrag, absorb_text, fa_absorb c f a ha]
              simp
            have hcp' : (absorb c f).pages ≠ [] := by
              rw [absorb_pages]
              exact absorbPages_ne_nil c.pages _ hcp
            obtain ⟨P, L', heq, hl, hsh, ho, hfa, hsall, hchain⟩ :=
              ihs (absorb c f) har hca' hcp'
            refine ⟨P, L', heq, ?_, ?_, ?_, ?_, hsall, hchain⟩
            · rw [hl, absorb_lang]
            · rw [hsh, absorb_show]
            · rw [ho, absorb_origin]
            · rw [hfa]
              have habsfa : first_alpha_character (absorb c f).text = some a := by
                rw [absorb_text]
                exact fa_absorb c f a ha
              rw [ha]
              exact habsfa

/-- C6 (amended): `merge_fragments` is idempotent on inputs in which every
fragment's text contains an alphabetic character — re-running it on its own
output (each paragraph as a singleton fragment) returns the output unchanged. -/
theorem c6_merge_idempotent : ∀ fs : List Frag,
    (∀ f ∈ fs, first_alpha_character f.text ≠ none) →
    merge_fragments (merge_fragments fs) = merge_fragments fs := by
  intro fs h
  obtain ⟨hsettled, hchain⟩ := (merge_output_settled fs).1 h
  exact (mergeGo_of_settled (merge_fragments fs) hsettled hchain).1

/-- C6 (counterexample): with a digits-only fragment between two sentences the
merger is not idempotent — the first run splits after `"End."` (no alphabetic
character follows), but the second run sees the merged `"123 abc"` paragraph,
whose first alphabetic character is lowercase, and merges everything. -/
theorem c6_counterexample :
    merge_fragments (merge_fragments
        [⟨"End.", [], "de", true, some 1, [some 1], "prose-block"⟩,
         ⟨"123", [], "de", true, some 1, [some 1], "prose-block"⟩,
         ⟨"abc", [], "de", true, some 1, [some 1], "prose-block"⟩]) ≠
      merge_fragments
        [⟨"End.", [], "de", true, some 1, [some 1], "prose-block"⟩,
         ⟨"123", [], "de", true, some 1, [some 1], "prose-block"⟩,
         ⟨"abc", [], "de", true, some 1, [some 1], "prose-block"⟩] := by
  decide

/-- C6 witness: idempotence on a concrete all-alphabetic run that both merges
and splits. -/
theorem c6_merge_idempotent_witness :
    merge_fragments (merge_fragments
        [⟨"One sentence.", [], "de", true, some 1, [some 1], "prose-block"⟩,
         ⟨"Second part,", [], "de", true, some 1, [some 1], "prose-block"⟩,
         ⟨"continues", [], "de", true, some 2, [some 2], "prose-block"⟩]) =
      merge_fragments
        [⟨"One sentence.", [], "de", true, some 1, [some 1], "prose-block"⟩,
         ⟨"Second part,", [], "de", true, some 1, [some 1], "prose-block"⟩,
         ⟨"continues", [], "de", true, some 2, [some 2], "prose-block"⟩] :=
  c6_merge_idempotent _ (by decide)
